import Mathlib

/-!
Templating pipeline (`pkg/templating/interfaces.go`).

A shallow embedding of the interfaces of the templating reconciler: the
generation engine, the child-resource patchers and their chain, and the
child-resource deleter.

Conventions of the embedding.

* A Go slice is a `Slice`: the nil slice is kept apart from a non-nil slice of
  length zero.
* A Go `error` is an `Option Err`: `none` is the nil error.
* The functions behind the interfaces are Go values that may read and write
  state outside the chain (closures, receivers, a cluster client).  That state
  is the type `World`; every call takes the world before it and returns the
  world after it.  Calls are total: a call that panics or does not return is
  outside the model.
* `resource.ParentResource`, `resource.ChildResource`, `context.Context` and the
  dynamic type of errors are never inspected by this file of the program, so
  they are type parameters `Parent`, `Child`, `Ctx` and `Err`.
-/

namespace Templating

/-- A Go slice value: the nil slice, or a non-nil slice with its elements. -/
inductive Slice (α : Type) where
  | nil : Slice α
  | mk (elems : List α) : Slice α
  deriving DecidableEq, Repr

/-- The elements a `range` loop over the slice visits, in order. -/
def Slice.toList {α : Type} : Slice α → List α
  | Slice.nil => []
  | Slice.mk xs => xs

/-- The Go test `s == nil`. -/
def Slice.isNil {α : Type} : Slice α → Bool
  | Slice.nil => true
  | Slice.mk _ => false

/-- The Go expression `len(s)`. -/
def Slice.len {α : Type} (s : Slice α) : Nat :=
  s.toList.length

/-- The pair `([]resource.ChildResource, error)` returned by every method of the file. -/
abbrev Ret (Child Err : Type) : Type :=
  Slice Child × Option Err

/-- The returned list of a call. -/
def Ret.list {Child Err World : Type} (r : Ret Child Err × World) : Slice Child :=
  r.1.1

/-- The returned error of a call (`none` is nil). -/
def Ret.err {Child Err World : Type} (r : Ret Child Err × World) : Option Err :=
  r.1.2

/-- The world after a call. -/
def Ret.world {Child Err World : Type} (r : Ret Child Err × World) : World :=
  r.2

/-! ## Engine -/

/-- Interface `Engine`: a value with a `Run` method. -/
structure Engine (Parent Child Err World : Type) where
  Run : Parent → World → Ret Child Err × World

/-- Type `EngineFunc`: a bare function used as engine. -/
abbrev EngineFunc (Parent Child Err World : Type) : Type :=
  Parent → World → Ret Child Err × World

/-- Method `EngineFunc.Run`: `return t(cr)`. -/
def EngineFunc.Run {Parent Child Err World : Type}
    (t : EngineFunc Parent Child Err World) (cr : Parent) (w : World) :
    Ret Child Err × World :=
  t cr w

/-- An `EngineFunc` used where an `Engine` is expected. -/
def EngineFunc.asEngine {Parent Child Err World : Type}
    (t : EngineFunc Parent Child Err World) : Engine Parent Child Err World :=
  ⟨EngineFunc.Run t⟩

/-! ## Patchers -/

/-- Interface `ChildResourcePatcher`: a value with a `Patch` method. -/
structure ChildResourcePatcher (Parent Child Err World : Type) where
  Patch : Parent → Slice Child → World → Ret Child Err × World

/-- Type `ChildResourcePatcherFunc`: a bare function used as patcher. -/
abbrev ChildResourcePatcherFunc (Parent Child Err World : Type) : Type :=
  Parent → Slice Child → World → Ret Child Err × World

/-- Method `ChildResourcePatcherFunc.Patch`: `return pre(cr, list)`. -/
def ChildResourcePatcherFunc.Patch {Parent Child Err World : Type}
    (pre : ChildResourcePatcherFunc Parent Child Err World) (cr : Parent)
    (list : Slice Child) (w : World) : Ret Child Err × World :=
  pre cr list w

/-- A `ChildResourcePatcherFunc` used where a `ChildResourcePatcher` is expected. -/
def ChildResourcePatcherFunc.asPatcher {Parent Child Err World : Type}
    (pre : ChildResourcePatcherFunc Parent Child Err World) :
    ChildResourcePatcher Parent Child Err World :=
  ⟨ChildResourcePatcherFunc.Patch pre⟩

/-- Type `ChildResourcePatcherChain`: a slice of patchers. -/
abbrev ChildResourcePatcherChain (Parent Child Err World : Type) : Type :=
  Slice (ChildResourcePatcher Parent Child Err World)

/-- The `for _, f := range pre` loop of `ChildResourcePatcherChain.Patch` over the
steps still to visit, from the current value of `currentList`: each step is called
with `cr` and `currentList`; a non-nil error returns `(nil, err)` at once; when no
step is left the loop falls through to `return currentList, nil`. -/
def ChildResourcePatcherChain.loop {Parent Child Err World : Type} (cr : Parent) :
    List (ChildResourcePatcher Parent Child Err World) → Slice Child → World →
      Ret Child Err × World
  | [], currentList, w => ((currentList, none), w)
  | f :: rest, currentList, w =>
    match f.Patch cr currentList w with
    | ((_, some err), w') => ((Slice.nil, some err), w')
    | ((currentList', none), w') => ChildResourcePatcherChain.loop cr rest currentList' w'

/-- Method `ChildResourcePatcherChain.Patch`: `currentList := list`, then the loop. -/
def ChildResourcePatcherChain.Patch {Parent Child Err World : Type}
    (pre : ChildResourcePatcherChain Parent Child Err World) (cr : Parent)
    (list : Slice Child) (w : World) : Ret Child Err × World :=
  ChildResourcePatcherChain.loop cr pre.toList list w

/-- A `ChildResourcePatcherChain` used where a `ChildResourcePatcher` is expected. -/
def ChildResourcePatcherChain.asPatcher {Parent Child Err World : Type}
    (pre : ChildResourcePatcherChain Parent Child Err World) :
    ChildResourcePatcher Parent Child Err World :=
  ⟨ChildResourcePatcherChain.Patch pre⟩

/-- One call of a step's `Patch` made by the chain: the position of the step in the
chain and the two arguments it was called with. -/
structure Invocation (Parent Child : Type) where
  index : Nat
  cr : Parent
  list : Slice Child
  deriving DecidableEq, Repr

/-- The loop of `ChildResourcePatcherChain.Patch` with a ghost log: the same
control flow as `ChildResourcePatcherChain.loop`, and every call `f.Patch(cr,
currentList)` is recorded, in the order made, with the position `i` of `f`. -/
def ChildResourcePatcherChain.loopLog {Parent Child Err World : Type} (cr : Parent) :
    List (ChildResourcePatcher Parent Child Err World) → Nat → Slice Child → World →
      (Ret Child Err × World) × List (Invocation Parent Child)
  | [], _, currentList, w => (((currentList, none), w), [])
  | f :: rest, i, currentList, w =>
    match f.Patch cr currentList w with
    | ((_, some err), w') => (((Slice.nil, some err), w'), [⟨i, cr, currentList⟩])
    | ((currentList', none), w') =>
      ((ChildResourcePatcherChain.loopLog cr rest (i + 1) currentList' w').1,
        ⟨i, cr, currentList⟩ ::
          (ChildResourcePatcherChain.loopLog cr rest (i + 1) currentList' w').2)

/-- Method `ChildResourcePatcherChain.Patch` with the ghost log of the calls it makes. -/
def ChildResourcePatcherChain.PatchLog {Parent Child Err World : Type}
    (pre : ChildResourcePatcherChain Parent Child Err World) (cr : Parent)
    (list : Slice Child) (w : World) :
    (Ret Child Err × World) × List (Invocation Parent Child) :=
  ChildResourcePatcherChain.loopLog cr pre.toList 0 list w

/-! ## Deleter -/

/-- Interface `ChildResourceDeleter`: a value with a `Delete` method. -/
structure ChildResourceDeleter (Ctx Child Err World : Type) where
  Delete : Ctx → Slice Child → World → Ret Child Err × World

/-- Type `ChildResourceDeleterFunc`: a bare function used as deleter. -/
abbrev ChildResourceDeleterFunc (Ctx Child Err World : Type) : Type :=
  Ctx → Slice Child → World → Ret Child Err × World

/-- Method `ChildResourceDeleterFunc.Delete`: `return pre(ctx, list)`. -/
def ChildResourceDeleterFunc.Delete {Ctx Child Err World : Type}
    (pre : ChildResourceDeleterFunc Ctx Child Err World) (ctx : Ctx)
    (list : Slice Child) (w : World) : Ret Child Err × World :=
  pre ctx list w

/-- A `ChildResourceDeleterFunc` used where a `ChildResourceDeleter` is expected. -/
def ChildResourceDeleterFunc.asDeleter {Ctx Child Err World : Type}
    (pre : ChildResourceDeleterFunc Ctx Child Err World) :
    ChildResourceDeleter Ctx Child Err World :=
  ⟨ChildResourceDeleterFunc.Delete pre⟩

/-! ## Reference behaviour of a sequence of steps

The definitions of this section follow the words of the specification, not the
code of the chain: they say what each step returns when it is fed the list
returned by the step before it, with no notion of aborting. -/

/-- Specification side: the list and the world after feeding `list` through all the
steps in order, each step receiving the list returned by the step before it. -/
def feedThrough {Parent Child Err World : Type} (cr : Parent) :
    List (ChildResourcePatcher Parent Child Err World) → Slice Child → World →
      Slice Child × World
  | [], list, w => (list, w)
  | f :: rest, list, w =>
    feedThrough cr rest (Ret.list (f.Patch cr list w)) (Ret.world (f.Patch cr list w))

/-- Specification side: what every step returns, in order, when each step is fed the
list returned by the step before it. -/
def stepReturns {Parent Child Err World : Type} (cr : Parent) :
    List (ChildResourcePatcher Parent Child Err World) → Slice Child → World →
      List (Ret Child Err × World)
  | [], _, _ => []
  | f :: rest, list, w =>
    f.Patch cr list w ::
      stepReturns cr rest (Ret.list (f.Patch cr list w)) (Ret.world (f.Patch cr list w))

/-! ## Cleanup resolver -/

/-- Modelled from the spec: the identity of a child, "kind + namespace/name" (section 3,
invariant I1).  Package `resource`, which declares the child type, is not part of
the sources at hand. -/
structure Identity where
  kind : String
  ns : String
  name : String
  deriving DecidableEq, Repr

/-- Modelled from the spec: a child resource (section 3), with its kind, its
namespace and name, and an opaque body payload.  Package `resource` is not part of
the sources at hand. -/
structure ChildResource where
  kind : String
  ns : String
  name : String
  body : String
  deriving DecidableEq, Repr

/-- Modelled from the spec: `identity(c)`, the key of a child that does not depend on
its body. -/
def ChildResource.identity (c : ChildResource) : Identity :=
  ⟨c.kind, c.ns, c.name⟩

/-- Modelled from the spec: `identities(desired)`. -/
def identities (desired : List ChildResource) : List Identity :=
  desired.map ChildResource.identity

/-- Modelled from the spec: `resolve` of the cleanup resolver (section 4.3), absent
from the sources: "`resolve` computes `{c in observed : identity(c) not in
identities(desired)}`, preserving observed's relative order". -/
def resolve (observed desired : List ChildResource) : List ChildResource :=
  observed.filter (fun c => decide (c.identity ∉ identities desired))

/-! ## Concrete steps and children used to exercise the definitions -/

/-- A step that succeeds: it returns the list it received with child `c` appended,
and leaves `tag` in the world (a list of tags) as the mark of having run. -/
def stepAppend (tag c : Nat) : ChildResourcePatcher Nat Nat Nat (List Nat) :=
  ⟨fun _ list w => ((Slice.mk (list.toList ++ [c]), none), w ++ [tag])⟩

/-- A step that fails with error `e`: it still returns a non-empty list next to the
error, and leaves `tag` in the world as the mark of having run. -/
def stepFail (tag c e : Nat) : ChildResourcePatcher Nat Nat Nat (List Nat) :=
  ⟨fun _ list w => ((Slice.mk (list.toList ++ [c]), some e), w ++ [tag])⟩

/-- A child of kind `Deployment` in namespace `default`. -/
def child (name body : String) : ChildResource :=
  ⟨"Deployment", "default", name, body⟩

/-- An engine whose result depends on the world: it generates one child made of the
parent and of the number of calls made so far, and counts the call in the world. -/
def engineCounting : EngineFunc Nat Nat Nat Nat :=
  fun cr w => ((Slice.mk [cr + w], none), w + 1)

/-- An engine whose result depends on the parent only: it generates two children
made of the parent, and counts the call in the world. -/
def engineFixed : EngineFunc Nat Nat Nat Nat :=
  fun cr w => ((Slice.mk [cr, cr + 1], none), w + 1)

/-! ## Reference behaviour of a chain: calls and composition

The definitions of this section follow the words of the claims, not the code of the
chain. -/

/-- Specification side: the position of the first step that returns a non-nil error
when each step is fed the list returned by the step before it, and the number of
steps when no step does. -/
def firstFailure {Parent Child Err World : Type} (cr : Parent)
    (steps : List (ChildResourcePatcher Parent Child Err World)) (list : Slice Child)
    (w : World) : Nat :=
  (stepReturns cr steps list w).findIdx (fun r => (Ret.err r).isSome)

/-- Specification side: the number of steps to call: the steps up to and including
the first failing one, all the steps when none fails. -/
def callCount {Parent Child Err World : Type} (cr : Parent)
    (steps : List (ChildResourcePatcher Parent Child Err World)) (list : Slice Child)
    (w : World) : Nat :=
  min steps.length (firstFailure cr steps list w + 1)

/-- Specification side: run `c1.Patch(cr, list)`; if it returns an error, return
`(nil, that error)`; otherwise return `c2.Patch(cr, l)` where `l` is the list `c1`
returned. -/
def patchThen {Parent Child Err World : Type}
    (c1 c2 : ChildResourcePatcherChain Parent Child Err World) (cr : Parent)
    (list : Slice Child) (w : World) : Ret Child Err × World :=
  match ChildResourcePatcherChain.Patch c1 cr list w with
  | ((_, some err), w1) => ((Slice.nil, some err), w1)
  | ((l, none), w1) => ChildResourcePatcherChain.Patch c2 cr l w1

/-! ## Observing the calls of a chain

The steps of a chain are arbitrary values; a step can therefore record by itself
the calls it receives.  A spy does so, and the chain is run as it is, by
`ChildResourcePatcherChain.Patch`, on the spied steps. -/

/-- A spy around the step `f` standing at position `i` of a chain: it calls `f` with
the arguments it receives, returns what `f` returns, and appends to a log kept in
the world the position `i` and the two arguments it was called with. -/
def spy {Parent Child Err World : Type} (i : Nat)
    (f : ChildResourcePatcher Parent Child Err World) :
    ChildResourcePatcher Parent Child Err (World × List (Invocation Parent Child)) :=
  ⟨fun cr list s =>
    ((f.Patch cr list s.1).1, ((f.Patch cr list s.1).2, s.2 ++ [⟨i, cr, list⟩]))⟩

/-- The steps of a chain, each under a spy that knows its position, counted from `i`. -/
def spies {Parent Child Err World : Type} :
    Nat → List (ChildResourcePatcher Parent Child Err World) →
      List (ChildResourcePatcher Parent Child Err (World × List (Invocation Parent Child)))
  | _, [] => []
  | i, f :: rest => spy i f :: spies (i + 1) rest

/-! ## Lemmas on the loop of the chain -/

section ChainLemmas

variable {Parent Child Err World : Type}

open ChildResourcePatcherChain

theorem loop_cons_of_ok (cr : Parent) (f : ChildResourcePatcher Parent Child Err World)
    (rest : List (ChildResourcePatcher Parent Child Err World)) (list : Slice Child)
    (w : World) (h : Ret.err (f.Patch cr list w) = none) :
    loop cr (f :: rest) list w =
      loop cr rest (Ret.list (f.Patch cr list w)) (Ret.world (f.Patch cr list w)) := by
  rw [loop]
  rcases hr : f.Patch cr list w with ⟨⟨l', _ | e⟩, w'⟩
  · simp [Ret.list, Ret.world]
  · simp [hr, Ret.err] at h

theorem loop_cons_of_err (cr : Parent) (f : ChildResourcePatcher Parent Child Err World)
    (rest : List (ChildResourcePatcher Parent Child Err World)) (list : Slice Child)
    (w : World) (e : Err) (h : Ret.err (f.Patch cr list w) = some e) :
    loop cr (f :: rest) list w = ((Slice.nil, some e), Ret.world (f.Patch cr list w)) := by
  rw [loop]
  rcases hr : f.Patch cr list w with ⟨⟨l', _ | e'⟩, w'⟩
  · simp [hr, Ret.err] at h
  · simp [hr, Ret.err] at h
    simp [Ret.world, h]

theorem loopLog_cons_of_ok (cr : Parent) (f : ChildResourcePatcher Parent Child Err World)
    (rest : List (ChildResourcePatcher Parent Child Err World)) (i : Nat)
    (list : Slice Child) (w : World) (h : Ret.err (f.Patch cr list w) = none) :
    loopLog cr (f :: rest) i list w =
      ((loopLog cr rest (i + 1) (Ret.list (f.Patch cr list w))
          (Ret.world (f.Patch cr list w))).1,
        ⟨i, cr, list⟩ ::
          (loopLog cr rest (i + 1) (Ret.list (f.Patch cr list w))
            (Ret.world (f.Patch cr list w))).2) := by
  rw [loopLog]
  rcases hr : f.Patch cr list w with ⟨⟨l', _ | e⟩, w'⟩
  · simp [Ret.list, Ret.world]
  · simp [hr, Ret.err] at h

theorem loopLog_cons_of_err (cr : Parent) (f : ChildResourcePatcher Parent Child Err World)
    (rest : List (ChildResourcePatcher Parent Child Err World)) (i : Nat)
    (list : Slice Child) (w : World) (e : Err)
    (h : Ret.err (f.Patch cr list w) = some e) :
    loopLog cr (f :: rest) i list w =
      (((Slice.nil, some e), Ret.world (f.Patch cr list w)), [⟨i, cr, list⟩]) := by
  rw [loopLog]
  rcases hr : f.Patch cr list w with ⟨⟨l', _ | e'⟩, w'⟩
  · simp [hr, Ret.err] at h
  · simp [hr, Ret.err] at h
    simp [Ret.world, h]

/-- The ghost log does not change what the loop returns. -/
theorem loopLog_fst (cr : Parent)
    (steps : List (ChildResourcePatcher Parent Child Err World)) (i : Nat)
    (list : Slice Child) (w : World) :
    (loopLog cr steps i list w).1 = loop cr steps list w := by
  induction steps generalizing i list w with
  | nil => rfl
  | cons f rest ih =>
    cases h : Ret.err (f.Patch cr list w) with
    | none => rw [loopLog_cons_of_ok cr f rest i list w h, loop_cons_of_ok cr f rest list w h, ih]
    | some e => rw [loopLog_cons_of_err cr f rest i list w e h, loop_cons_of_err cr f rest list w e h]

/-- The ghost log does not change what `Patch` returns. -/
theorem PatchLog_fst (pre : ChildResourcePatcherChain Parent Child Err World) (cr : Parent)
    (list : Slice Child) (w : World) :
    (PatchLog pre cr list w).1 = Patch pre cr list w :=
  loopLog_fst cr pre.toList 0 list w

/-- Steps that all succeed are passed through: the loop goes on with the remaining
steps from the list and the world the successful steps produced. -/
theorem loop_append_of_ok (cr : Parent)
    (steps rest : List (ChildResourcePatcher Parent Child Err World))
    (list : Slice Child) (w : World)
    (h : ∀ r ∈ stepReturns cr steps list w, Ret.err r = none) :
    loop cr (steps ++ rest) list w =
      loop cr rest (feedThrough cr steps list w).1 (feedThrough cr steps list w).2 := by
  induction steps generalizing list w with
  | nil => rfl
  | cons f more ih =>
    have hf : Ret.err (f.Patch cr list w) = none := h _ (by simp [stepReturns])
    rw [List.cons_append, loop_cons_of_ok cr f _ list w hf, feedThrough]
    exact ih _ _ (fun r hr => h r (by simp [stepReturns, hr]))

/-- The logged loop over steps that all succeed, followed by further steps. -/
theorem loopLog_append_of_ok (cr : Parent)
    (steps rest : List (ChildResourcePatcher Parent Child Err World)) (i : Nat)
    (list : Slice Child) (w : World)
    (h : ∀ r ∈ stepReturns cr steps list w, Ret.err r = none) :
    loopLog cr (steps ++ rest) i list w =
      ((loopLog cr rest (i + steps.length) (feedThrough cr steps list w).1
          (feedThrough cr steps list w).2).1,
        (loopLog cr steps i list w).2 ++
          (loopLog cr rest (i + steps.length) (feedThrough cr steps list w).1
            (feedThrough cr steps list w).2).2) := by
  induction steps generalizing i list w with
  | nil => simp [loopLog, feedThrough]
  | cons f more ih =>
    have hf : Ret.err (f.Patch cr list w) = none := h _ (by simp [stepReturns])
    rw [List.cons_append, loopLog_cons_of_ok cr f _ i list w hf,
      loopLog_cons_of_ok cr f more i list w hf, feedThrough,
      ih (i + 1) _ _ (fun r hr => h r (by simp [stepReturns, hr]))]
    simp [Nat.add_assoc, Nat.add_comm 1]

/-- Steps that all succeed are each called once, in declaration order. -/
theorem loopLog_index_of_ok (cr : Parent)
    (steps : List (ChildResourcePatcher Parent Child Err World)) (i : Nat)
    (list : Slice Child) (w : World)
    (h : ∀ r ∈ stepReturns cr steps list w, Ret.err r = none) :
    (loopLog cr steps i list w).2.map Invocation.index = List.range' i steps.length := by
  induction steps generalizing i list w with
  | nil => rfl
  | cons f more ih =>
    have hf : Ret.err (f.Patch cr list w) = none := h _ (by simp [stepReturns])
    have ih' := ih (i + 1) (Ret.list (f.Patch cr list w)) (Ret.world (f.Patch cr list w))
      (fun r hr => h r (by simp [stepReturns, hr]))
    rw [loopLog_cons_of_ok cr f more i list w hf]
    simp [List.range', ih']

/-- The last entry of `stepReturns` carries the list and the world of `feedThrough`. -/
theorem stepReturns_getLast (cr : Parent) (f : ChildResourcePatcher Parent Child Err World)
    (rest : List (ChildResourcePatcher Parent Child Err World))
    (list : Slice Child) (w : World) :
    ∃ r, (stepReturns cr (f :: rest) list w).getLast? = some r ∧
      feedThrough cr (f :: rest) list w = (Ret.list r, Ret.world r) := by
  induction rest generalizing f list w with
  | nil => exact ⟨f.Patch cr list w, by simp [stepReturns], by simp [feedThrough]⟩
  | cons g more ih =>
    obtain ⟨r, hr, hfeed⟩ := ih g (Ret.list (f.Patch cr list w)) (Ret.world (f.Patch cr list w))
    refine ⟨r, ?_, ?_⟩
    · simp only [stepReturns] at hr ⊢
      rw [List.getLast?_cons_cons]
      exact hr
    · rw [feedThrough]; exact hfeed

end ChainLemmas
section ChainLemmas2

variable {Parent Child Err World : Type}

open ChildResourcePatcherChain

/-- The loop returns `(nil, e)` and the world left by the first step that fails. -/
theorem loop_first_error (cr : Parent)
    (steps : List (ChildResourcePatcher Parent Child Err World)) (list : Slice Child)
    (w : World) (i : Nat) (r : Ret Child Err × World) (e : Err)
    (hstep : (stepReturns cr steps list w)[i]? = some r)
    (herr : Ret.err r = some e)
    (hfirst : ∀ r' ∈ (stepReturns cr steps list w).take i, Ret.err r' = none) :
    loop cr steps list w = ((Slice.nil, some e), Ret.world r) := by
  induction steps generalizing i list w with
  | nil => simp [stepReturns] at hstep
  | cons f rest ih =>
    cases i with
    | zero =>
      simp only [stepReturns, List.getElem?_cons_zero, Option.some.injEq] at hstep
      subst hstep
      exact loop_cons_of_err cr f rest list w e herr
    | succ j =>
      simp only [stepReturns, List.getElem?_cons_succ] at hstep
      simp only [stepReturns, List.take_succ_cons, List.mem_cons, forall_eq_or_imp] at hfirst
      rw [loop_cons_of_ok cr f rest list w hfirst.1]
      exact ih _ _ j hstep hfirst.2

/-- A non-nil error of the loop comes with the nil list. -/
theorem loop_list_nil_of_err (cr : Parent)
    (steps : List (ChildResourcePatcher Parent Child Err World)) (list : Slice Child)
    (w : World) (h : Ret.err (loop cr steps list w) ≠ none) :
    Ret.list (loop cr steps list w) = Slice.nil := by
  induction steps generalizing list w with
  | nil => simp [loop, Ret.err] at h
  | cons f rest ih =>
    cases hf : Ret.err (f.Patch cr list w) with
    | none =>
      rw [loop_cons_of_ok cr f rest list w hf] at h ⊢
      exact ih _ _ h
    | some e =>
      rw [loop_cons_of_err cr f rest list w e hf]
      rfl

/-- The log of steps that all succeed: step `k` is called with the parent of the
chain and with the list the `k` steps before it produced. -/
theorem loopLog_snd_of_ok (cr : Parent)
    (steps : List (ChildResourcePatcher Parent Child Err World)) (i : Nat)
    (list : Slice Child) (w : World)
    (h : ∀ r ∈ stepReturns cr steps list w, Ret.err r = none) :
    (loopLog cr steps i list w).2 =
      (List.range steps.length).map
        (fun k => ⟨i + k, cr, (feedThrough cr (steps.take k) list w).1⟩) := by
  induction steps generalizing i list w with
  | nil => rfl
  | cons f more ih =>
    have hf : Ret.err (f.Patch cr list w) = none := h _ (by simp [stepReturns])
    have ih' := ih (i + 1) (Ret.list (f.Patch cr list w)) (Ret.world (f.Patch cr list w))
      (fun r hr => h r (by simp [stepReturns, hr]))
    rw [loopLog_cons_of_ok cr f more i list w hf, ih', List.length_cons,
      List.range_succ_eq_map]
    simp [feedThrough, Function.comp_def, Nat.add_assoc, Nat.add_comm 1]

end ChainLemmas2
/-! ## The chain of patchers -/

section Chain

variable {Parent Child Err World : Type}

open ChildResourcePatcherChain

/-- C1. When step `i` of the chain returns the non-nil error `e` on the list produced
by the steps before it, and none of the steps before it returns an error, then
`ChildResourcePatcherChain.Patch` returns the error `e` itself: not wrapped and not
replaced by the error of another step. -/
theorem Patch_returns_first_error
    (pre : ChildResourcePatcherChain Parent Child Err World) (cr : Parent)
    (list : Slice Child) (w : World) (i : Nat) (r : Ret Child Err × World) (e : Err)
    (hstep : (stepReturns cr pre.toList list w)[i]? = some r)
    (herr : Ret.err r = some e)
    (hfirst : ∀ r' ∈ (stepReturns cr pre.toList list w).take i, Ret.err r' = none) :
    Ret.err (Patch pre cr list w) = some e := by
  unfold Patch
  rw [loop_first_error cr pre.toList list w i r e hstep herr hfirst]
  rfl

/-- C1, exercised: of three steps the second fails with error `7` and the third
would fail with error `9`; the chain returns error `7`. -/
theorem Patch_returns_first_error_witness :
    Ret.err (Patch (Slice.mk [stepAppend 1 10, stepFail 2 20 7, stepFail 3 30 9]) 0
      (Slice.mk [5]) []) = some 7 :=
  Patch_returns_first_error (Slice.mk [stepAppend 1 10, stepFail 2 20 7, stepFail 3 30 9]) 0
    (Slice.mk [5]) [] 1 ((Slice.mk [5, 10, 20], some 7), [1, 2]) 7
    (by decide) (by decide) (by decide)

/-- C2. When the steps before `f` all succeed and `f` fails on the list they
produced, the chain `steps ++ [f] ++ suf` does the same whatever `suf` is: the
same returned list and error, the same world afterwards, and the same calls, which
are those of the steps at positions `0` to `steps.length` and no other. -/
theorem Patch_stops_at_first_error
    (steps suf : List (ChildResourcePatcher Parent Child Err World))
    (f : ChildResourcePatcher Parent Child Err World) (cr : Parent)
    (list : Slice Child) (w : World)
    (hsteps : ∀ r ∈ stepReturns cr steps list w, Ret.err r = none)
    (hf : Ret.err (f.Patch cr (feedThrough cr steps list w).1
      (feedThrough cr steps list w).2) ≠ none) :
    PatchLog (Slice.mk (steps ++ f :: suf)) cr list w =
        PatchLog (Slice.mk (steps ++ [f])) cr list w ∧
      Patch (Slice.mk (steps ++ f :: suf)) cr list w =
        Patch (Slice.mk (steps ++ [f])) cr list w ∧
      (PatchLog (Slice.mk (steps ++ f :: suf)) cr list w).2.map Invocation.index =
        List.range (steps.length + 1) := by
  obtain ⟨e, he⟩ := Option.ne_none_iff_exists'.mp hf
  have key : ∀ tail : List (ChildResourcePatcher Parent Child Err World),
      PatchLog (Slice.mk (steps ++ f :: tail)) cr list w =
        (((Slice.nil, some e),
            Ret.world (f.Patch cr (feedThrough cr steps list w).1
              (feedThrough cr steps list w).2)),
          (loopLog cr steps 0 list w).2 ++
            [⟨0 + steps.length, cr, (feedThrough cr steps list w).1⟩]) := by
    intro tail
    unfold PatchLog
    rw [Slice.toList, loopLog_append_of_ok cr steps (f :: tail) 0 list w hsteps,
      loopLog_cons_of_err cr f tail _ _ _ e he]
  refine ⟨by rw [key suf, key []], ?_, ?_⟩
  · rw [← PatchLog_fst, ← PatchLog_fst, key suf, key []]
  · rw [key suf, List.map_append, loopLog_index_of_ok cr steps 0 list w hsteps,
      List.range_succ, List.range_eq_range']
    simp

/-- C2, exercised: after a successful step and a failing one, two more steps are not
called; the world holds the marks of the first two steps only. -/
theorem Patch_stops_at_first_error_witness :
    PatchLog (Slice.mk ([stepAppend 1 10] ++ stepFail 2 20 7 ::
        [stepAppend 3 30, stepFail 4 40 9])) 0 (Slice.mk [5]) [] =
      (((Slice.nil, some 7), [1, 2]), [⟨0, 0, Slice.mk [5]⟩, ⟨1, 0, Slice.mk [5, 10]⟩]) ∧
    PatchLog (Slice.mk ([stepAppend 1 10] ++ stepFail 2 20 7 ::
        [stepAppend 3 30, stepFail 4 40 9])) 0 (Slice.mk [5]) [] =
      PatchLog (Slice.mk ([stepAppend 1 10] ++ [stepFail 2 20 7])) 0 (Slice.mk [5]) [] :=
  ⟨by decide,
    (Patch_stops_at_first_error [stepAppend 1 10] [stepAppend 3 30, stepFail 4 40 9]
      (stepFail 2 20 7) 0 (Slice.mk [5]) [] (by decide) (by decide)).1⟩

/-- C3. Whenever `ChildResourcePatcherChain.Patch` returns a non-nil error, the
list it returns is the nil slice. -/
theorem Patch_error_list_nil
    (pre : ChildResourcePatcherChain Parent Child Err World) (cr : Parent)
    (list : Slice Child) (w : World)
    (h : Ret.err (Patch pre cr list w) ≠ none) :
    Ret.list (Patch pre cr list w) = Slice.nil :=
  loop_list_nil_of_err cr pre.toList list w h

/-- C3, exercised: the first step produced `[5, 10]`, the failing step returned
`[5, 10, 20]` next to its error, and the chain returns the nil slice. -/
theorem Patch_error_list_nil_witness :
    Ret.list ((stepFail 2 20 7).Patch 0 (Slice.mk [5, 10]) [1]) = Slice.mk [5, 10, 20] ∧
    Ret.list (Patch (Slice.mk [stepAppend 1 10, stepFail 2 20 7]) 0 (Slice.mk [5]) []) =
      Slice.nil :=
  ⟨by decide,
    Patch_error_list_nil (Slice.mk [stepAppend 1 10, stepFail 2 20 7]) 0 (Slice.mk [5]) []
      (by decide)⟩

/-- C4. When every step succeeds on the list it is given, the chain returns a nil
error and the list obtained by feeding the input through the steps in declaration
order, each step receiving the list returned by the step before it; the calls made
are one per step, in that order, step `k` receiving the parent of the chain and the
list produced by the `k` steps before it. -/
theorem Patch_all_ok
    (pre : ChildResourcePatcherChain Parent Child Err World) (cr : Parent)
    (list : Slice Child) (w : World)
    (h : ∀ r ∈ stepReturns cr pre.toList list w, Ret.err r = none) :
    Patch pre cr list w =
        (((feedThrough cr pre.toList list w).1, none), (feedThrough cr pre.toList list w).2) ∧
      (PatchLog pre cr list w).2 =
        (List.range pre.len).map
          (fun k => ⟨k, cr, (feedThrough cr (pre.toList.take k) list w).1⟩) := by
  constructor
  · have := loop_append_of_ok cr pre.toList [] list w h
    rw [List.append_nil] at this
    unfold Patch
    rw [this, loop]
  · unfold PatchLog Slice.len
    rw [loopLog_snd_of_ok cr pre.toList 0 list w h]
    simp

/-- C4, exercised: three successful steps append `10`, `20`, `30` in that order. -/
theorem Patch_all_ok_witness :
    Patch (Slice.mk [stepAppend 1 10, stepAppend 2 20, stepAppend 3 30]) 0 (Slice.mk [5]) [] =
      ((Slice.mk [5, 10, 20, 30], none), [1, 2, 3]) ∧
    Patch (Slice.mk [stepAppend 1 10, stepAppend 2 20, stepAppend 3 30]) 0 (Slice.mk [5]) [] =
      ((Ret.list ((stepAppend 3 30).Patch 0 (Ret.list ((stepAppend 2 20).Patch 0
        (Ret.list ((stepAppend 1 10).Patch 0 (Slice.mk [5]) [])) [1])) [1, 2]), none),
        [1, 2, 3]) :=
  ⟨((Patch_all_ok (Slice.mk [stepAppend 1 10, stepAppend 2 20, stepAppend 3 30]) 0
      (Slice.mk [5]) [] (by decide)).1).trans (by decide), by decide⟩

/-- C5. A chain with no steps, the nil chain or a chain of length zero, returns its
input list as it is (the nil list stays nil, the empty list stays empty) with a nil
error, makes no call and leaves the world as it was. -/
theorem Patch_no_steps
    (pre : ChildResourcePatcherChain Parent Child Err World) (cr : Parent)
    (list : Slice Child) (w : World) (h : pre.len = 0) :
    Patch pre cr list w = ((list, none), w) ∧ (PatchLog pre cr list w).2 = [] := by
  have hnil : pre.toList = [] := List.length_eq_zero.mp h
  unfold Patch PatchLog
  rw [hnil]
  exact ⟨rfl, rfl⟩

/-- C5, exercised on the nil chain and on the chain of length zero, with a nil, an
empty and a non-empty input list. -/
theorem Patch_no_steps_witness :
    Patch (Slice.nil : ChildResourcePatcherChain Nat Nat Nat (List Nat)) 0 Slice.nil [] =
        ((Slice.nil, none), []) ∧
      Patch (Slice.mk [] : ChildResourcePatcherChain Nat Nat Nat (List Nat)) 0 (Slice.mk []) [] =
        ((Slice.mk [], none), []) ∧
      Patch (Slice.mk [] : ChildResourcePatcherChain Nat Nat Nat (List Nat)) 0
        (Slice.mk [3, 1, 2]) [] = ((Slice.mk [3, 1, 2], none), []) :=
  ⟨(Patch_no_steps Slice.nil 0 Slice.nil [] (by decide)).1,
    (Patch_no_steps (Slice.mk []) 0 (Slice.mk []) [] (by decide)).1,
    (Patch_no_steps (Slice.mk []) 0 (Slice.mk [3, 1, 2]) [] (by decide)).1⟩

/-- C6. For a chain with at least one step in which every step succeeds, what the
chain returns is what its last step returned: the same list, element for element
and in the same order (and the same nil error and world). -/
theorem Patch_returns_last_step
    (pre : ChildResourcePatcherChain Parent Child Err World) (cr : Parent)
    (list : Slice Child) (w : World) (hne : pre.len ≠ 0)
    (h : ∀ r ∈ stepReturns cr pre.toList list w, Ret.err r = none) :
    (stepReturns cr pre.toList list w).getLast? = some (Patch pre cr list w) ∧
      ∃ r, (stepReturns cr pre.toList list w).getLast? = some r ∧
        Ret.list (Patch pre cr list w) = Ret.list r := by
  have hmain : (stepReturns cr pre.toList list w).getLast? = some (Patch pre cr list w) := by
    have hall := loop_append_of_ok cr pre.toList [] list w h
    rw [List.append_nil] at hall
    unfold Patch
    rw [hall, loop]
    cases hl : pre.toList with
    | nil => simp [Slice.len, hl] at hne
    | cons f rest =>
      obtain ⟨r, hr, hfeed⟩ := stepReturns_getLast cr f rest list w
      have hrerr : Ret.err r = none := h r (by rw [hl]; exact List.mem_of_getLast?_eq_some hr)
      rw [hr, hfeed]
      rcases r with ⟨⟨l', e'⟩, w'⟩
      simp only [Ret.err] at hrerr
      simp [Ret.list, Ret.world, hrerr]
  exact ⟨hmain, _, hmain, rfl⟩

/-- C6, exercised: the last step returns `[5, 10, 20]`, and so does the chain. -/
theorem Patch_returns_last_step_witness :
    (stepReturns 0 [stepAppend 1 10, stepAppend 2 20] (Slice.mk [5]) []).getLast? =
        some ((Slice.mk [5, 10, 20], none), [1, 2]) ∧
      (stepReturns 0 [stepAppend 1 10, stepAppend 2 20] (Slice.mk [5]) []).getLast? =
        some (Patch (Slice.mk [stepAppend 1 10, stepAppend 2 20]) 0 (Slice.mk [5]) []) :=
  ⟨by decide,
    (Patch_returns_last_step (Slice.mk [stepAppend 1 10, stepAppend 2 20]) 0 (Slice.mk [5]) []
      (by decide) (by decide)).1⟩

end Chain
/-! ## The function adapters -/

section Adapters

variable {Parent Child Ctx Err World : Type}

/-- C7. `ChildResourceDeleterFunc(f).Delete(ctx, l)` returns the pair returned by
`f(ctx, l)`, list and error together, and leaves the world as `f` left it; so does
the deleter interface value made of `f`.  A deleted list returned next to a non-nil
error is therefore returned with that error. -/
theorem Delete_eq_func (pre : ChildResourceDeleterFunc Ctx Child Err World) (ctx : Ctx)
    (list : Slice Child) (w : World) :
    ChildResourceDeleterFunc.Delete pre ctx list w = pre ctx list w ∧
      (ChildResourceDeleterFunc.asDeleter pre).Delete ctx list w = pre ctx list w ∧
      Ret.list (ChildResourceDeleterFunc.Delete pre ctx list w) = Ret.list (pre ctx list w) ∧
      Ret.err (ChildResourceDeleterFunc.Delete pre ctx list w) = Ret.err (pre ctx list w) :=
  ⟨rfl, rfl, rfl, rfl⟩

/-- C8. `EngineFunc(f).Run(p)` returns the pair returned by `f(p)`, children and
error together, and leaves the world as `f` left it; so does the engine interface
value made of `f`. -/
theorem Run_eq_func (t : EngineFunc Parent Child Err World) (cr : Parent) (w : World) :
    EngineFunc.Run t cr w = t cr w ∧
      (EngineFunc.asEngine t).Run cr w = t cr w ∧
      Ret.list (EngineFunc.Run t cr w) = Ret.list (t cr w) ∧
      Ret.err (EngineFunc.Run t cr w) = Ret.err (t cr w) :=
  ⟨rfl, rfl, rfl, rfl⟩

/-- C9. `ChildResourcePatcherFunc(f).Patch(p, l)` returns the pair returned by
`f(p, l)`, called with the same `p` and `l`, and leaves the world as `f` left it; so
does the patcher interface value made of `f`. -/
theorem Patch_eq_func (pre : ChildResourcePatcherFunc Parent Child Err World) (cr : Parent)
    (list : Slice Child) (w : World) :
    ChildResourcePatcherFunc.Patch pre cr list w = pre cr list w ∧
      (ChildResourcePatcherFunc.asPatcher pre).Patch cr list w = pre cr list w ∧
      Ret.list (ChildResourcePatcherFunc.Patch pre cr list w) = Ret.list (pre cr list w) ∧
      Ret.err (ChildResourcePatcherFunc.Patch pre cr list w) = Ret.err (pre cr list w) :=
  ⟨rfl, rfl, rfl, rfl⟩

/-- A deleter that deletes the first child only and reports an error: the adapter
returns the deleted child and the error together. -/
theorem Delete_partial_failure :
    ChildResourceDeleterFunc.Delete
        (fun (_ : Unit) (l : Slice Nat) (w : List Nat) =>
          ((Slice.mk (l.toList.take 1), some 7), w ++ l.toList.take 1))
        () (Slice.mk [4, 5]) [] =
      ((Slice.mk [4], some 7), [4]) := by
  decide

/-- An engine that generates no child: the adapter returns the empty list and the
nil error. -/
theorem Run_empty_success :
    EngineFunc.Run (fun (_ : Nat) (w : Unit) => ((Slice.mk ([] : List Nat), (none : Option Nat)), w))
        3 () =
      ((Slice.mk [], none), ()) := by
  decide

end Adapters

/-! ## The cleanup resolver -/

theorem mem_identities_iff (c : ChildResource) (desired : List ChildResource) :
    c.identity ∈ identities desired ↔ ∃ d ∈ desired, d.identity = c.identity := by
  simp [identities]

/-- C10. `resolve observed desired` is the sublist of `observed`, in the order of
`observed`, of the children whose identity is not the identity of any child of
`desired`: every child of `observed` is kept as many times as it occurs when its
identity is absent from `desired` and dropped when it is present, whatever its
body; the result is empty when `observed` is empty and is `observed` when `desired`
is empty; and `observed = [X, Y, Z]`, `desired = [Y, Z, W]` gives `[X]`, also when
the body of `Y` differs between the two. -/
theorem resolve_spec (observed desired : List ChildResource) :
    List.Sublist (resolve observed desired) observed ∧
      (∀ c, c ∈ resolve observed desired ↔
        (c ∈ observed ∧ ¬ ∃ d ∈ desired, d.identity = c.identity)) ∧
      (∀ c, List.count c (resolve observed desired) =
        if (∃ d ∈ desired, d.identity = c.identity) then 0 else List.count c observed) ∧
      resolve [] desired = [] ∧
      resolve observed [] = observed ∧
      resolve [child "x" "1", child "y" "1", child "z" "1"]
          [child "y" "2", child "z" "1", child "w" "1"] = [child "x" "1"] := by
  refine ⟨List.filter_sublist _, ?_, ?_, rfl, ?_, by decide⟩
  · intro c
    simp [resolve, mem_identities_iff]
  · intro c
    by_cases hc : ∃ d ∈ desired, d.identity = c.identity
    · rw [if_pos hc, List.count_eq_zero]
      intro hmem
      simp only [resolve, List.mem_filter, decide_eq_true_eq, mem_identities_iff] at hmem
      exact hmem.2 hc
    · rw [if_neg hc]
      unfold resolve
      rw [List.count_filter]
      simpa [mem_identities_iff] using hc
  · simp [resolve, identities]

/-! ## Further lemmas on the loop of the chain -/

section ChainLemmas3

variable {Parent Child Err World : Type}

open ChildResourcePatcherChain

/-- The loop over `xs ++ ys` is the loop over `xs` followed, when it succeeds, by the
loop over `ys` from the list and the world it left. -/
theorem loop_append (cr : Parent)
    (xs ys : List (ChildResourcePatcher Parent Child Err World)) (list : Slice Child)
    (w : World) :
    loop cr (xs ++ ys) list w =
      match loop cr xs list w with
      | ((_, some err), w1) => ((Slice.nil, some err), w1)
      | ((l, none), w1) => loop cr ys l w1 := by
  induction xs generalizing list w with
  | nil => simp [loop]
  | cons f rest ih =>
    cases hf : Ret.err (f.Patch cr list w) with
    | none =>
      rw [List.cons_append, loop_cons_of_ok cr f (rest ++ ys) list w hf,
        loop_cons_of_ok cr f rest list w hf]
      exact ih _ _
    | some e =>
      rw [List.cons_append, loop_cons_of_err cr f (rest ++ ys) list w e hf,
        loop_cons_of_err cr f rest list w e hf]

/-- The loop returns a nil error exactly when every step does. -/
theorem loop_err_none_iff (cr : Parent)
    (steps : List (ChildResourcePatcher Parent Child Err World)) (list : Slice Child)
    (w : World) :
    Ret.err (loop cr steps list w) = none ↔
      ∀ r ∈ stepReturns cr steps list w, Ret.err r = none := by
  induction steps generalizing list w with
  | nil => simp [loop, stepReturns, Ret.err]
  | cons f rest ih =>
    cases hf : Ret.err (f.Patch cr list w) with
    | none =>
      rw [loop_cons_of_ok cr f rest list w hf, ih]
      simp [stepReturns, hf]
    | some e =>
      rw [loop_cons_of_err cr f rest list w e hf]
      constructor
      · intro h
        simp [Ret.err] at h
      · intro h
        have hnone := h (f.Patch cr list w) (by simp [stepReturns])
        rw [hf] at hnone
        simp at hnone

theorem callCount_cons_of_err (cr : Parent) (f : ChildResourcePatcher Parent Child Err World)
    (rest : List (ChildResourcePatcher Parent Child Err World)) (list : Slice Child)
    (w : World) (e : Err) (h : Ret.err (f.Patch cr list w) = some e) :
    callCount cr (f :: rest) list w = 1 := by
  simp [callCount, firstFailure, stepReturns, List.findIdx_cons, h]

theorem callCount_cons_of_ok (cr : Parent) (f : ChildResourcePatcher Parent Child Err World)
    (rest : List (ChildResourcePatcher Parent Child Err World)) (list : Slice Child)
    (w : World) (h : Ret.err (f.Patch cr list w) = none) :
    callCount cr (f :: rest) list w =
      callCount cr rest (Ret.list (f.Patch cr list w)) (Ret.world (f.Patch cr list w)) + 1 := by
  simp [callCount, firstFailure, stepReturns, List.findIdx_cons, h, Nat.add_min_add_right]

/-- When no step fails, all the steps are counted. -/
theorem callCount_of_ok (cr : Parent)
    (steps : List (ChildResourcePatcher Parent Child Err World)) (list : Slice Child)
    (w : World) (h : ∀ r ∈ stepReturns cr steps list w, Ret.err r = none) :
    callCount cr steps list w = steps.length := by
  induction steps generalizing list w with
  | nil => simp [callCount]
  | cons f rest ih =>
    have hf : Ret.err (f.Patch cr list w) = none := h _ (by simp [stepReturns])
    rw [callCount_cons_of_ok cr f rest list w hf,
      ih _ _ (fun r hr => h r (by simp [stepReturns, hr])), List.length_cons]

/-- When step `i` is the first to fail, the steps counted are those at positions `0`
to `i`. -/
theorem callCount_of_first_error (cr : Parent)
    (steps : List (ChildResourcePatcher Parent Child Err World)) (list : Slice Child)
    (w : World) (i : Nat) (r : Ret Child Err × World)
    (hstep : (stepReturns cr steps list w)[i]? = some r)
    (herr : Ret.err r ≠ none)
    (hfirst : ∀ r' ∈ (stepReturns cr steps list w).take i, Ret.err r' = none) :
    callCount cr steps list w = i + 1 := by
  induction steps generalizing i list w with
  | nil => simp [stepReturns] at hstep
  | cons f rest ih =>
    cases i with
    | zero =>
      simp only [stepReturns, List.getElem?_cons_zero, Option.some.injEq] at hstep
      subst hstep
      obtain ⟨e, he⟩ := Option.ne_none_iff_exists'.mp herr
      exact callCount_cons_of_err cr f rest list w e he
    | succ j =>
      simp only [stepReturns, List.getElem?_cons_succ] at hstep
      simp only [stepReturns, List.take_succ_cons, List.mem_cons, forall_eq_or_imp] at hfirst
      rw [callCount_cons_of_ok cr f rest list w hfirst.1, ih _ _ j hstep hfirst.2]

/-- The log of the loop: the steps counted by `callCount` are called, in order, each
with the parent of the chain and the list the steps before it produced. -/
theorem loopLog_snd (cr : Parent)
    (steps : List (ChildResourcePatcher Parent Child Err World)) (i : Nat)
    (list : Slice Child) (w : World) :
    (loopLog cr steps i list w).2 =
      (List.range (callCount cr steps list w)).map
        (fun k => ⟨i + k, cr, (feedThrough cr (steps.take k) list w).1⟩) := by
  induction steps generalizing i list w with
  | nil => simp [loopLog, callCount]
  | cons f rest ih =>
    cases hf : Ret.err (f.Patch cr list w) with
    | none =>
      rw [loopLog_cons_of_ok cr f rest i list w hf, callCount_cons_of_ok cr f rest list w hf,
        ih (i + 1) _ _, List.range_succ_eq_map]
      simp [feedThrough, Function.comp_def, Nat.add_assoc, Nat.add_comm 1]
    | some e =>
      rw [loopLog_cons_of_err cr f rest i list w e hf,
        callCount_cons_of_err cr f rest list w e hf]
      simp [List.range_succ_eq_map, feedThrough]

end ChainLemmas3

/-! ## Lemmas on a chain of spied steps -/

section SpyLemmas

variable {Parent Child Err World : Type}

open ChildResourcePatcherChain

/-- The loop of the chain over spied steps: it returns what the loop over the steps
returns, leaves the world the loop over the steps leaves, and the spies have logged
what the ghost log of `loopLog` holds. -/
theorem loop_spies (cr : Parent)
    (steps : List (ChildResourcePatcher Parent Child Err World)) (i : Nat)
    (list : Slice Child) (w : World) (log : List (Invocation Parent Child)) :
    loop cr (spies i steps) list (w, log) =
      ((loop cr steps list w).1,
        ((loop cr steps list w).2, log ++ (loopLog cr steps i list w).2)) := by
  induction steps generalizing i list w log with
  | nil => simp [spies, loop, loopLog]
  | cons f rest ih =>
    cases hf : Ret.err (f.Patch cr list w) with
    | none =>
      have hs : Ret.err ((spy i f).Patch cr list (w, log)) = none := hf
      rw [spies, loop_cons_of_ok cr (spy i f) (spies (i + 1) rest) list (w, log) hs,
        loop_cons_of_ok cr f rest list w hf, loopLog_cons_of_ok cr f rest i list w hf]
      have hstep := ih (i + 1) (Ret.list (f.Patch cr list w)) (Ret.world (f.Patch cr list w))
        (log ++ [⟨i, cr, list⟩])
      rw [List.append_assoc] at hstep
      exact hstep
    | some e =>
      have hs : Ret.err ((spy i f).Patch cr list (w, log)) = some e := hf
      rw [spies, loop_cons_of_err cr (spy i f) (spies (i + 1) rest) list (w, log) e hs,
        loop_cons_of_err cr f rest list w e hf, loopLog_cons_of_err cr f rest i list w e hf]
      rfl

/-- The world the loop leaves is the world left by calling, in order, the steps
counted by `callCount`, and no other. -/
theorem loop_world (cr : Parent)
    (steps : List (ChildResourcePatcher Parent Child Err World))
    (list : Slice Child) (w : World) :
    Ret.world (loop cr steps list w) =
      (feedThrough cr (steps.take (callCount cr steps list w)) list w).2 := by
  induction steps generalizing list w with
  | nil => simp [loop, callCount, feedThrough, Ret.world]
  | cons f rest ih =>
    cases hf : Ret.err (f.Patch cr list w) with
    | none =>
      rw [loop_cons_of_ok cr f rest list w hf, callCount_cons_of_ok cr f rest list w hf,
        List.take_succ_cons, feedThrough]
      exact ih _ _
    | some e =>
      rw [loop_cons_of_err cr f rest list w e hf, callCount_cons_of_err cr f rest list w e hf]
      simp [feedThrough, Ret.world]

end SpyLemmas

/-! ## Determinism of the engine adapter -/

section EngineTwice

variable {Parent Child Err World : Type}

/-- C11, as stated, fails: `EngineFunc.Run` returns what the wrapped function
returns, and a function that reads state outside its argument returns different
children on two calls with the same parent.  Here the first call returns `[3]` and
the second, made in the world the first one left, returns `[4]`. -/
theorem Run_twice_differs :
    (EngineFunc.Run engineCounting 3 0).1 = (Slice.mk [3], none) ∧
      (EngineFunc.Run engineCounting 3 (Ret.world (EngineFunc.Run engineCounting 3 0))).1 =
        (Slice.mk [4], none) ∧
      (EngineFunc.Run engineCounting 3 (Ret.world (EngineFunc.Run engineCounting 3 0))).1 ≠
        (EngineFunc.Run engineCounting 3 0).1 := by
  decide

/-- C11, amended.  `Run` keeps no state of its own: the second of two calls returns
what the wrapped function returns on the same parent in the world the first call
left.  When the result of the wrapped function on that parent does not depend on
the world, two calls of `Run` with equal parents return equal results: the same
children in the same order and the same error. -/
theorem Run_twice_eq_of_deterministic (t : EngineFunc Parent Child Err World)
    (cr cr' : Parent) (w : World) (hcr : cr = cr')
    (hdet : ∀ w1 w2 : World, (t cr w1).1 = (t cr w2).1) :
    EngineFunc.Run t cr' (Ret.world (EngineFunc.Run t cr w)) = t cr' (Ret.world (t cr w)) ∧
      (EngineFunc.Run t cr' (Ret.world (EngineFunc.Run t cr w))).1 =
        (EngineFunc.Run t cr w).1 := by
  subst hcr
  exact ⟨rfl, hdet _ _⟩

/-- C11, amended, exercised: an engine whose result depends on the parent only
returns `[3, 4]` on both calls, though the world changed in between. -/
theorem Run_twice_eq_of_deterministic_witness :
    (EngineFunc.Run engineFixed 3 0).1 = (Slice.mk [3, 4], none) ∧
      Ret.world (EngineFunc.Run engineFixed 3 0) = 1 ∧
      (EngineFunc.Run engineFixed 3 (Ret.world (EngineFunc.Run engineFixed 3 0))).1 =
        (EngineFunc.Run engineFixed 3 0).1 :=
  ⟨by decide, by decide,
    (Run_twice_eq_of_deterministic engineFixed 3 3 0 rfl (fun _ _ => rfl)).2⟩

end EngineTwice

/-! ## The chain of patchers: errors, composition, nesting, calls -/

section Chain2

variable {Parent Child Err World : Type}

open ChildResourcePatcherChain

/-- C12. `ChildResourcePatcherChain.Patch` returns a nil error if and only if every
step of the chain returns a nil error when the steps are applied in order, each to
the list returned by the step before it. -/
theorem Patch_err_none_iff
    (pre : ChildResourcePatcherChain Parent Child Err World) (cr : Parent)
    (list : Slice Child) (w : World) :
    Ret.err (Patch pre cr list w) = none ↔
      ∀ r ∈ stepReturns cr pre.toList list w, Ret.err r = none :=
  loop_err_none_iff cr pre.toList list w

/-- C13. For a chain `c` made of the steps of `c1` followed by the steps of `c2`,
`c.Patch(cr, list)` is: run `c1.Patch(cr, list)`; if it returns an error, return
`(nil, that error)`; otherwise return `c2.Patch(cr, l)` with the list `l` that `c1`
returned. -/
theorem Patch_append
    (c c1 c2 : ChildResourcePatcherChain Parent Child Err World) (cr : Parent)
    (list : Slice Child) (w : World) (hc : c.toList = c1.toList ++ c2.toList) :
    Patch c cr list w = patchThen c1 c2 cr list w := by
  unfold patchThen Patch
  rw [hc]
  exact loop_append cr c1.toList c2.toList list w

/-- C13, exercised: the first chain succeeds and the second fails at its first
step; and the first chain fails, so that the second is not run. -/
theorem Patch_append_witness :
    Patch (Slice.mk [stepAppend 1 10, stepAppend 2 20, stepFail 3 30 7, stepAppend 4 40]) 0
        (Slice.mk [5]) [] =
      patchThen (Slice.mk [stepAppend 1 10, stepAppend 2 20])
        (Slice.mk [stepFail 3 30 7, stepAppend 4 40]) 0 (Slice.mk [5]) [] ∧
    patchThen (Slice.mk [stepAppend 1 10, stepAppend 2 20])
        (Slice.mk [stepFail 3 30 7, stepAppend 4 40]) 0 (Slice.mk [5]) [] =
      ((Slice.nil, some 7), [1, 2, 3]) ∧
    patchThen (Slice.mk [stepAppend 1 10, stepFail 3 30 7]) (Slice.mk [stepAppend 4 40]) 0
        (Slice.mk [5]) [] = ((Slice.nil, some 7), [1, 3]) :=
  ⟨Patch_append (Slice.mk [stepAppend 1 10, stepAppend 2 20, stepFail 3 30 7, stepAppend 4 40])
      (Slice.mk [stepAppend 1 10, stepAppend 2 20])
      (Slice.mk [stepFail 3 30 7, stepAppend 4 40]) 0 (Slice.mk [5]) [] rfl,
    by decide, by decide⟩

/-- C14. A chain that holds the chain `b` as one of its steps, between the steps of
`a` and the steps of `c`, returns what the flat chain of the steps of `a`, `b` and
`c` returns: the same list and the same error (and leaves the same world). -/
theorem Patch_nested_eq_flat
    (a b c : ChildResourcePatcherChain Parent Child Err World) (cr : Parent)
    (list : Slice Child) (w : World) :
    Patch (Slice.mk (a.toList ++ ChildResourcePatcherChain.asPatcher b :: c.toList)) cr list w =
      Patch (Slice.mk (a.toList ++ b.toList ++ c.toList)) cr list w := by
  have hstep : ∀ (l : Slice Child) (w1 : World),
      loop cr (ChildResourcePatcherChain.asPatcher b :: c.toList) l w1 =
        loop cr (b.toList ++ c.toList) l w1 := by
    intro l w1
    rw [loop_append cr b.toList c.toList l w1, loop]
    rfl
  show loop cr (a.toList ++ ChildResourcePatcherChain.asPatcher b :: c.toList) list w =
    loop cr (a.toList ++ b.toList ++ c.toList) list w
  rw [List.append_assoc,
    loop_append cr a.toList (ChildResourcePatcherChain.asPatcher b :: c.toList) list w,
    loop_append cr a.toList (b.toList ++ c.toList) list w]
  rcases loop cr a.toList list w with ⟨⟨l, _ | e⟩, w1⟩
  · exact hstep l w1
  · rfl

/-- A chain nested as the second step of another, its own second step failing, and
the flat chain of the same steps: both return the nil list with error `7` and leave
the marks of steps 1, 2 and 3. -/
theorem Patch_nested_example :
    Patch (Slice.mk [stepAppend 1 10,
        ChildResourcePatcherChain.asPatcher (Slice.mk [stepAppend 2 20, stepFail 3 30 7]),
        stepAppend 4 40]) 0 (Slice.mk [5]) [] = ((Slice.nil, some 7), [1, 2, 3]) ∧
      Patch (Slice.mk [stepAppend 1 10, stepAppend 2 20, stepFail 3 30 7, stepAppend 4 40]) 0
        (Slice.mk [5]) [] = ((Slice.nil, some 7), [1, 2, 3]) := by
  decide

/-- C15. The chain of the single step `s` returns the error that `s` returns; it
returns the list that `s` returns when that error is nil, and the nil list when it
is not, whatever list `s` returned next to its error. -/
theorem Patch_singleton
    (s : ChildResourcePatcher Parent Child Err World) (cr : Parent)
    (list : Slice Child) (w : World) :
    Ret.err (Patch (Slice.mk [s]) cr list w) = Ret.err (s.Patch cr list w) ∧
      Ret.world (Patch (Slice.mk [s]) cr list w) = Ret.world (s.Patch cr list w) ∧
      (Ret.err (s.Patch cr list w) = none →
        Patch (Slice.mk [s]) cr list w = s.Patch cr list w) ∧
      (Ret.err (s.Patch cr list w) ≠ none →
        Ret.list (Patch (Slice.mk [s]) cr list w) = Slice.nil) := by
  unfold Patch
  simp only [Slice.toList]
  cases hs : Ret.err (s.Patch cr list w) with
  | none =>
    rw [loop_cons_of_ok cr s [] list w hs, loop]
    refine ⟨rfl, rfl, fun _ => ?_, fun h => absurd rfl h⟩
    rcases hr : s.Patch cr list w with ⟨⟨l, e⟩, w1⟩
    rw [hr] at hs
    simp only [Ret.err] at hs
    simp [Ret.list, Ret.world, hs]
  | some e =>
    rw [loop_cons_of_err cr s [] list w e hs]
    exact ⟨rfl, rfl, fun h => by simp at h, fun _ => rfl⟩

/-- C15, exercised: a successful step and its singleton chain return the same; a
failing step returns `[5, 20]` next to error `7` and its singleton chain returns
the nil list with error `7`. -/
theorem Patch_singleton_witness :
    Patch (Slice.mk [stepAppend 1 10]) 0 (Slice.mk [5]) [] =
        (stepAppend 1 10).Patch 0 (Slice.mk [5]) [] ∧
      (stepFail 2 20 7).Patch 0 (Slice.mk [5]) [] = ((Slice.mk [5, 20], some 7), [2]) ∧
      Patch (Slice.mk [stepFail 2 20 7]) 0 (Slice.mk [5]) [] = ((Slice.nil, some 7), [2]) ∧
      Ret.list (Patch (Slice.mk [stepFail 2 20 7]) 0 (Slice.mk [5]) []) = Slice.nil :=
  ⟨(Patch_singleton (stepAppend 1 10) 0 (Slice.mk [5]) []).2.2.1 (by decide),
    by decide, by decide,
    (Patch_singleton (stepFail 2 20 7) 0 (Slice.mk [5]) []).2.2.2 (by decide)⟩

/-- C16. Run `ChildResourcePatcherChain.Patch` on the steps of a chain, each under a
spy that records the calls it receives.  The chain returns the same list and error
and leaves the same world as without the spies, and the calls the steps received
are those of the steps at positions `0` to `callCount - 1`, each once and in
declaration order, where `callCount` counts the steps up to and including the first
failing one, and all the `n` steps when none fails; every called step received the
parent given to the chain and the list produced by the steps before it; at most `n`
calls are made.  Without spies, the world `Patch` leaves is the world left by
calling those steps in that order, and no other. -/
theorem Patch_calls
    (pre : ChildResourcePatcherChain Parent Child Err World) (cr : Parent)
    (list : Slice Child) (w : World) :
    (Patch (Slice.mk (spies 0 pre.toList)) cr list (w, [])).1 = (Patch pre cr list w).1 ∧
      (Patch (Slice.mk (spies 0 pre.toList)) cr list (w, [])).2.1 =
        Ret.world (Patch pre cr list w) ∧
      (Patch (Slice.mk (spies 0 pre.toList)) cr list (w, [])).2.2 =
        (List.range (callCount cr pre.toList list w)).map
          (fun k => ⟨k, cr, (feedThrough cr (pre.toList.take k) list w).1⟩) ∧
      (Patch (Slice.mk (spies 0 pre.toList)) cr list (w, [])).2.2.map Invocation.index =
        List.range (callCount cr pre.toList list w) ∧
      (∀ inv ∈ (Patch (Slice.mk (spies 0 pre.toList)) cr list (w, [])).2.2, inv.cr = cr) ∧
      (Patch (Slice.mk (spies 0 pre.toList)) cr list (w, [])).2.2.length ≤ pre.len ∧
      Ret.world (Patch pre cr list w) =
        (feedThrough cr (pre.toList.take (callCount cr pre.toList list w)) list w).2 ∧
      ((∀ r ∈ stepReturns cr pre.toList list w, Ret.err r = none) →
        callCount cr pre.toList list w = pre.len) ∧
      (∀ i r, (stepReturns cr pre.toList list w)[i]? = some r → Ret.err r ≠ none →
        (∀ r' ∈ (stepReturns cr pre.toList list w).take i, Ret.err r' = none) →
        callCount cr pre.toList list w = i + 1) ∧
      (PatchLog pre cr list w).2 =
        (Patch (Slice.mk (spies 0 pre.toList)) cr list (w, [])).2.2 := by
  have hrun : Patch (Slice.mk (spies 0 pre.toList)) cr list (w, []) =
      ((Patch pre cr list w).1,
        ((Patch pre cr list w).2, (loopLog cr pre.toList 0 list w).2)) := by
    have h := loop_spies cr pre.toList 0 list w []
    rw [List.nil_append] at h
    exact h
  have hlog : (Patch (Slice.mk (spies 0 pre.toList)) cr list (w, [])).2.2 =
      (List.range (callCount cr pre.toList list w)).map
        (fun k => ⟨k, cr, (feedThrough cr (pre.toList.take k) list w).1⟩) := by
    rw [hrun]
    show (loopLog cr pre.toList 0 list w).2 = _
    rw [loopLog_snd cr pre.toList 0 list w]
    simp
  refine ⟨by rw [hrun], by rw [hrun]; rfl, hlog, ?_, ?_, ?_, loop_world cr pre.toList list w,
    callCount_of_ok cr pre.toList list w, ?_, by rw [hrun]; rfl⟩
  · rw [hlog, List.map_map]
    simp [Function.comp_def]
  · intro inv hinv
    rw [hlog] at hinv
    obtain ⟨k, _, rfl⟩ := List.mem_map.mp hinv
    rfl
  · rw [hlog, List.length_map, List.length_range]
    exact Nat.min_le_left _ _
  · intro i r hstep herr hfirst
    exact callCount_of_first_error cr pre.toList list w i r hstep herr hfirst

/-- C16, exercised: of four steps the third fails; run by `Patch` under spies, the
first three are called, in order, with parent `9` and the lists `[5]`, `[5, 10]`,
`[5, 10, 20]`, and the fourth is not; the error, the nil list and the marks of the
first three steps are those of the chain without spies. -/
theorem Patch_calls_witness :
    Patch (Slice.mk (spies 0
        [stepAppend 1 10, stepAppend 2 20, stepFail 3 30 7, stepAppend 4 40]))
        9 (Slice.mk [5]) ([], []) =
      ((Slice.nil, some 7), ([1, 2, 3],
        [⟨0, 9, Slice.mk [5]⟩, ⟨1, 9, Slice.mk [5, 10]⟩, ⟨2, 9, Slice.mk [5, 10, 20]⟩])) ∧
    (Patch (Slice.mk (spies 0
        [stepAppend 1 10, stepAppend 2 20, stepFail 3 30 7, stepAppend 4 40]))
        9 (Slice.mk [5]) ([], [])).2.2 =
      [⟨0, 9, Slice.mk [5]⟩, ⟨1, 9, Slice.mk [5, 10]⟩, ⟨2, 9, Slice.mk [5, 10, 20]⟩] :=
  ⟨by decide,
    (Patch_calls (Slice.mk [stepAppend 1 10, stepAppend 2 20, stepFail 3 30 7, stepAppend 4 40])
      9 (Slice.mk [5]) []).2.2.1.trans (by decide)⟩

end Chain2

end Templating
